import Mathlib

set_option maxHeartbeats 1600000

namespace Repobuild

/-! Shallow embedding of src/repobuild.py (Ionosphere repository build
orchestration).  Strings are Lean `String`s; the process-wide download
coordinator (class attributes `source_state` / `download_cond` of
`PackageBuild`, lines 163-165, and the method `download_source_package`,
lines 218-277) is embedded as a labelled transition system over an abstract
set of worker threads.  Pure helpers (URL resolution, path handling, the
log-strip regular expression) are embedded as Lean functions. -/

/-- State of a source package download (`class SourcePackageState`, lines
150-156 of repobuild.py). -/
inductive SourcePackageState
  | InProgress
  | Downloaded
  | Failed
deriving DecidableEq

/-- Control location of one thread inside
`PackageBuild.download_source_package` (lines 218-277).
`start` is the top of the `while True` loop (about to run the locked
dispatch), `waiting` is blocked inside `self.download_cond.wait()`,
`downloading` is the body of the `try:` block after breaking out of the
loop as owner, `doneTrue` / `doneFalse` are the two returns, and `raised`
is the re-raise at line 277. -/
inductive PC
  | start
  | waiting
  | downloading
  | doneTrue
  | doneFalse
  | raised
deriving DecidableEq

/-- Result of one pass of the locked dispatch at the top of the loop. -/
inductive AcquireOutcome
  | own
  | retFalse
  | wait
deriving DecidableEq

/-- The locked dispatch of `download_source_package` (lines 224-239):
`state = self.source_state.get(self.package.name)`; absent or `Failed`
claims ownership (sets `InProgress`, breaks out of the loop), `Downloaded`
returns `False`, `InProgress` calls `self.download_cond.wait()`. -/
def acquireStep : Option SourcePackageState → AcquireOutcome
  | none => AcquireOutcome.own
  | some SourcePackageState.Failed => AcquireOutcome.own
  | some SourcePackageState.Downloaded => AcquireOutcome.retFalse
  | some SourcePackageState.InProgress => AcquireOutcome.wait

/-- `READ_BUFFER_SIZE = 1 << 20` (line 26). -/
def READ_BUFFER_SIZE : Nat := 1 <<< 20

/-- Payload of the `ValueError` raised at lines 254-261 when a read returns
zero bytes before `content_length` bytes have been read. -/
structure TransferError where
  url : String
  totalRead : Nat
  contentLength : Nat
deriving DecidableEq

/-- The streaming read loop of the owned download (lines 250-268).  The
response body is modelled as the list of successive `req.readinto(buffer)`
results; an exhausted stream returns 0 on every further read, which we model
by the list running out (`[]`) as well as by an explicit `0` entry.  The
loop runs while `total_read < content_length`, raises on a zero-byte read,
and otherwise writes the chunk and adds `n_read` to `total_read`. -/
def downloadLoop (url : String) (contentLength : Nat) :
    List Nat → Nat → Except TransferError Nat
  | chunks, totalRead =>
    if totalRead < contentLength then
      match chunks with
      | [] =>
        Except.error
          { url := url, totalRead := totalRead, contentLength := contentLength }
      | n :: rest =>
        if n = 0 then
          Except.error
            { url := url, totalRead := totalRead, contentLength := contentLength }
        else downloadLoop url contentLength rest (totalRead + n)
    else Except.ok totalRead

/-- An exception escaping the `try:` block of the owned download: either the
short-read `ValueError` above or any other error (`mkdir`, `urlopen`,
`open`, ... — the bare `except:` at line 273 catches everything). -/
inductive Exc
  | transfer (e : TransferError)
  | other (msg : String)
deriving DecidableEq

/-- Thread-local view of one worker running `download_source_package` for
one package.  `didDownload` is a history variable recording that this
thread performed a successful transfer. -/
structure ThreadState where
  pkgName : String
  pc : PC
  didDownload : Bool

/-- Process-wide shared state: the class attributes
`PackageBuild.source_state : Dict[str, SourcePackageState]` keyed by the
package NAME only (not name+platform), plus the per-thread control state.
`claims` and `transfers` are history variables counting, per package name,
ownership acquisitions and completed transfer attempts. -/
structure Global (ι : Type) where
  threads : ι → ThreadState
  state : String → Option SourcePackageState
  claims : String → Nat
  transfers : String → Nat

/-- Effect of the owning branch of the dispatch (lines 227-230): set the
shared entry to `InProgress` and fall through to the transfer. -/
def claimPost {ι : Type} [DecidableEq ι] (g : Global ι) (t : ι) : Global ι :=
  { threads := fun u =>
      if u = t then
        { pkgName := (g.threads u).pkgName, pc := PC.downloading,
          didDownload := (g.threads u).didDownload }
      else g.threads u
  , state := fun n =>
      if n = (g.threads t).pkgName then some SourcePackageState.InProgress
      else g.state n
  , claims := fun n =>
      if n = (g.threads t).pkgName then g.claims n + 1 else g.claims n
  , transfers := g.transfers }

/-- Effect of the `Downloaded` branch (lines 232-234): `return False`. -/
def falsePost {ι : Type} [DecidableEq ι] (g : Global ι) (t : ι) : Global ι :=
  { threads := fun u =>
      if u = t then
        { pkgName := (g.threads u).pkgName, pc := PC.doneFalse,
          didDownload := (g.threads u).didDownload }
      else g.threads u
  , state := g.state, claims := g.claims, transfers := g.transfers }

/-- Effect of the `InProgress` branch (lines 238-239): block inside
`self.download_cond.wait()`. -/
def waitPost {ι : Type} [DecidableEq ι] (g : Global ι) (t : ι) : Global ι :=
  { threads := fun u =>
      if u = t then
        { pkgName := (g.threads u).pkgName, pc := PC.waiting,
          didDownload := (g.threads u).didDownload }
      else g.threads u
  , state := g.state, claims := g.claims, transfers := g.transfers }

/-- Effect of a successfully completed owned transfer (lines 269-272): under
the lock set the entry to `Downloaded`, then `return True`.  NOTE: the code
performs no `notify_all` / `notify` call here. -/
def succeedPost {ι : Type} [DecidableEq ι] (g : Global ι) (t : ι) : Global ι :=
  { threads := fun u =>
      if u = t then
        { pkgName := (g.threads u).pkgName, pc := PC.doneTrue,
          didDownload := true }
      else g.threads u
  , state := fun n =>
      if n = (g.threads t).pkgName then some SourcePackageState.Downloaded
      else g.state n
  , claims := g.claims
  , transfers := fun n =>
      if n = (g.threads t).pkgName then g.transfers n + 1 else g.transfers n }

/-- Effect of an exception escaping the owned transfer (lines 273-277):
under the lock set the entry to `Failed`, then re-raise to the owner.
NOTE: the code performs no `notify_all` / `notify` call here either. -/
def failPost {ι : Type} [DecidableEq ι] (g : Global ι) (t : ι) : Global ι :=
  { threads := fun u =>
      if u = t then
        { pkgName := (g.threads u).pkgName, pc := PC.raised,
          didDownload := (g.threads u).didDownload }
      else g.threads u
  , state := fun n =>
      if n = (g.threads t).pkgName then some SourcePackageState.Failed
      else g.state n
  , claims := g.claims
  , transfers := fun n =>
      if n = (g.threads t).pkgName then g.transfers n + 1 else g.transfers n }

/-- Transition labels: the locked dispatch, a successful transfer completion
(with the observed chunk sizes and declared content length), or an
exception during the owned transfer. -/
inductive Label (ι : Type)
  | acquire (t : ι)
  | finishOk (t : ι) (chunks : List Nat) (contentLength : Nat)
  | finishErr (t : ι) (e : Exc)

/-- `true` exactly on transfer-failure labels. -/
def isFailLabel {ι : Type} : Label ι → Bool
  | Label.finishErr _ _ => true
  | _ => false

/-- One atomic step of the system.  The three `acquire` rules are the three
branches of the locked dispatch; `succeed` / `failure` are the two exits of
the owned `try:` block.  Faithful to the source, NO rule wakes a thread
parked at `PC.waiting`: `download_source_package` never notifies the
condition variable, so `self.download_cond.wait()` (line 239) can never
return. -/
inductive Step {ι : Type} [DecidableEq ι] : Global ι → Label ι → Global ι → Prop
  | claim (g : Global ι) (t : ι) :
      (g.threads t).pc = PC.start →
      acquireStep (g.state ((g.threads t).pkgName)) = AcquireOutcome.own →
      Step g (Label.acquire t) (claimPost g t)
  | observed (g : Global ι) (t : ι) :
      (g.threads t).pc = PC.start →
      acquireStep (g.state ((g.threads t).pkgName)) = AcquireOutcome.retFalse →
      Step g (Label.acquire t) (falsePost g t)
  | blocked (g : Global ι) (t : ι) :
      (g.threads t).pc = PC.start →
      acquireStep (g.state ((g.threads t).pkgName)) = AcquireOutcome.wait →
      Step g (Label.acquire t) (waitPost g t)
  | succeed (g : Global ι) (t : ι) (url : String) (chunks : List Nat)
      (contentLength n : Nat) :
      (g.threads t).pc = PC.downloading →
      downloadLoop url contentLength chunks 0 = Except.ok n →
      Step g (Label.finishOk t chunks contentLength) (succeedPost g t)
  | failure (g : Global ι) (t : ι) (e : Exc) :
      (g.threads t).pc = PC.downloading →
      Step g (Label.finishErr t e) (failPost g t)

/-- Finitely many steps, recording the trace of labels. -/
inductive Steps {ι : Type} [DecidableEq ι] :
    Global ι → List (Label ι) → Global ι → Prop
  | refl (g : Global ι) : Steps g [] g
  | tail {g g1 g2 : Global ι} {ls : List (Label ι)} {l : Label ι} :
      Steps g ls g1 → Step g1 l g2 → Steps g (ls ++ [l]) g2

/-- Initial state: every worker is about to enter the loop for its package,
`source_state` is the empty dictionary. -/
def initGlobal {ι : Type} (names : ι → String) : Global ι :=
  { threads := fun t => { pkgName := names t, pc := PC.start, didDownload := false }
  , state := fun _ => none
  , claims := fun _ => 0
  , transfers := fun _ => 0 }

/-- Safety invariant of the coordinator, over all traces: a thread inside
the owned transfer has its entry at `InProgress`; two threads inside the
owned transfer for the same package name are equal; and `didDownload`
holds exactly at `return True`. -/
def GInv {ι : Type} (g : Global ι) : Prop :=
  (∀ t : ι, (g.threads t).pc = PC.downloading →
     g.state ((g.threads t).pkgName) = some SourcePackageState.InProgress)
  ∧ (∀ t u : ι, (g.threads t).pc = PC.downloading →
      (g.threads u).pc = PC.downloading →
      (g.threads t).pkgName = (g.threads u).pkgName → t = u)
  ∧ (∀ t : ι, (g.threads t).didDownload = true ↔ (g.threads t).pc = PC.doneTrue)

/-- Per-name accounting invariant along failure-free traces: an entry is
absent with no claims and no transfers, or `InProgress` after exactly one
claim, or `Downloaded` after exactly one claim and one transfer. -/
def NFInv {ι : Type} (g : Global ι) : Prop :=
  ∀ nm : String,
    (g.state nm = none ∧ g.claims nm = 0 ∧ g.transfers nm = 0)
    ∨ (g.state nm = some SourcePackageState.InProgress
        ∧ g.claims nm = 1 ∧ g.transfers nm = 0)
    ∨ (g.state nm = some SourcePackageState.Downloaded
        ∧ g.claims nm = 1 ∧ g.transfers nm = 1)

/-- Two workers (for two platforms) requesting the same package name. -/
def namesTwo : Fin 2 → String := fun _ => "pkg"

/-- Initial state of the two-worker scenario. -/
def gInit2 : Global (Fin 2) := initGlobal namesTwo

/-- Worker 0 claims ownership of the download. -/
def gClaim0 : Global (Fin 2) := claimPost gInit2 0

/-- Worker 1 observes `InProgress` and parks in `cond.wait()`. -/
def gWait1 : Global (Fin 2) := waitPost gClaim0 1

/-- Worker 0 completes the transfer: entry becomes `Downloaded`, worker 0
returns `True` — and worker 1 is still parked. -/
def gDone2 : Global (Fin 2) := succeedPost gWait1 0

/-- Trace of the two-worker scenario. -/
def traceTwo : List (Label (Fin 2)) :=
  [Label.acquire 0, Label.acquire 1, Label.finishOk 0 [5] 5]

/-- Variant scenario: worker 0 finishes before worker 1 ever looks. -/
def gDoneNoWait : Global (Fin 2) := succeedPost gClaim0 0

/-- Worker 1 then observes `Downloaded` and returns `False`. -/
def gFalse1 : Global (Fin 2) := falsePost gDoneNoWait 1

/-- Data model for a software package (`class Package`, lines 32-73).
`dependencies` is carried as an association list. -/
structure Package where
  name : String
  version : String
  download_url : String
  dependencies : List (String × String)
deriving DecidableEq

/-- The opening-brace character of a `str.format` replacement field. -/
def lbrace : Char := Char.ofNat 123

/-- The closing-brace character of a `str.format` replacement field. -/
def rbrace : Char := Char.ofNat 125

/-- Scan a replacement-field name up to the closing brace; `none` when the
field is never closed (Python raises `ValueError` there). -/
def splitKey : List Char → Option (List Char × List Char)
  | [] => none
  | c :: rest =>
    if c = rbrace then some ([], rest)
    else
      match splitKey rest with
      | none => none
      | some (k, r) => some (c :: k, r)

theorem splitKey_length : ∀ {l : List Char} {k r : List Char},
    splitKey l = some (k, r) → r.length < l.length := by
  intro l
  induction l with
  | nil => intro k r h; exact absurd h (by simp [splitKey])
  | cons c rest ih =>
    intro k r h
    simp only [splitKey] at h
    split at h
    · injection h with h2
      injection h2 with hk hr
      subst hr
      simp only [List.length_cons]
      omega
    · split at h
      · exact absurd h (by simp)
      · rename_i k1 r1 heq
        injection h with h2
        injection h2 with hk hr
        subst hr
        have := ih heq
        simp only [List.length_cons]
        omega

/-- `str.format`-style substitution (the `self.download_url.format(...)`
call at lines 61-63): literal text is copied, `\x7b\x7bkey\x7d\x7d` escapes
produce literal braces, `\x7bkey\x7d` is replaced by the keyword argument
value, and an unknown key or stray brace fails (Python raises). -/
def pyFormat (kv : List (String × String)) (s : List Char) : Option (List Char) :=
  match s with
  | [] => some []
  | c :: rest =>
    if c = lbrace then
      match rest with
      | [] => none
      | d :: rest2 =>
        if d = lbrace then (pyFormat kv rest2).map (fun l => lbrace :: l)
        else
          match h : splitKey (d :: rest2) with
          | none => none
          | some (k, r) =>
            match kv.find? (fun p => p.1 = String.mk k) with
            | none => none
            | some p => (pyFormat kv r).map (fun l => p.2.data ++ l)
    else if c = rbrace then
      match rest with
      | d :: rest2 =>
        if d = rbrace then (pyFormat kv rest2).map (fun l => rbrace :: l)
        else none
      | [] => none
    else (pyFormat kv rest).map (fun l => c :: l)
termination_by s.length
decreasing_by
  · simp only [List.length_cons]; omega
  · have := splitKey_length h
    simp only [List.length_cons] at this ⊢
    omega
  · simp only [List.length_cons]; omega
  · simp only [List.length_cons]; omega

/-- The keyword arguments passed to `format` at lines 60-63: `Arch` and
`Architecture` are both the host architecture (`platform.machine()`),
`Name` / `Version` come from the package, `System` is
`platform.system()`. -/
def formatKV (pkg : Package) (arch sysname : String) : List (String × String) :=
  [("Arch", arch), ("Architecture", arch), ("Name", pkg.name),
   ("System", sysname), ("Version", pkg.version)]

/-- `Package.resolved_download_url` (lines 55-63), as a function of the
package and of the host architecture and OS name. -/
def resolved_download_url (pkg : Package) (arch sysname : String) :
    Option String :=
  (pyFormat (formatKV pkg arch sysname) pkg.download_url.data).map String.mk

/-- The path component of a URL, as `urllib.parse.urlparse(url).path`:
strip the fragment, strip the query, strip a `scheme:` head, and when the
rest begins with `//` skip the network location up to the next `/`. -/
def urlPath (s : List Char) : List Char :=
  let s1 := (s.takeWhile (fun c => c ≠ '#')).takeWhile (fun c => c ≠ '?')
  let beforeColon := s1.takeWhile (fun c => c ≠ ':' ∧ c ≠ '/')
  let s2 :=
    if (beforeColon ++ [':']).isPrefixOf s1 then
      s1.drop (beforeColon.length + 1)
    else s1
  match s2 with
  | '/' :: '/' :: rest => rest.dropWhile (fun c => c ≠ '/')
  | _ => s2

/-- Value of one hexadecimal digit. -/
def hexVal (c : Char) : Option Nat :=
  if '0' ≤ c ∧ c ≤ '9' then some (c.toNat - 48)
  else if 'a' ≤ c ∧ c ≤ 'f' then some (c.toNat - 87)
  else if 'A' ≤ c ∧ c ≤ 'F' then some (c.toNat - 55)
  else none

/-- `urllib.parse.unquote_plus`: `+` becomes a space and `%XX` hex escapes
are decoded; malformed escapes pass through unchanged. -/
def unquotePlus : List Char → List Char
  | [] => []
  | '+' :: rest => ' ' :: unquotePlus rest
  | '%' :: a :: b :: rest =>
    match hexVal a, hexVal b with
    | some x, some y => Char.ofNat (16 * x + y) :: unquotePlus rest
    | _, _ => '%' :: unquotePlus (a :: b :: rest)
  | c :: rest => c :: unquotePlus rest

/-- The last component of `os.path.split`: everything after the final
slash (the whole string when there is no slash). -/
def pathSplitLast (s : List Char) : List Char :=
  (s.reverse.takeWhile (fun c => c ≠ '/')).reverse

/-- `Package.source_archive_name` (lines 47-53): the URL-decoded basename
of the path component of the resolved download URL. -/
def source_archive_name (pkg : Package) (arch sysname : String) :
    Option String :=
  (resolved_download_url pkg arch sysname).map
    (fun u => String.mk (pathSplitLast (unquotePlus (urlPath u.data))))

/-- Type of package being produced (`class PackageType`, lines 76-81). -/
inductive PackageType
  | RPM
  | DEB
deriving DecidableEq

/-- Variables for a given platform to build for (`class PlatformInfo`,
lines 84-91). -/
structure PlatformInfo where
  name : String
  arch : String
  source_docker_image : String
  package_type : PackageType
deriving DecidableEq

/-- `Platform.dockerfile_template` (lines 142-147): the short OS name plus
the `.dockerfile` suffix. -/
def dockerfile_template (p : PlatformInfo) : String :=
  p.name ++ ".dockerfile"

/-- Handle of a successfully built Docker image (the external adapter type
`docker.models.images.Image`, kept abstract). -/
structure Image where
  id : String
deriving DecidableEq

/-- `os.path.join` for two components: an absolute second component wins;
otherwise the components are joined with a slash unless the first already
ends in one or is empty. -/
def pathJoin (a b : String) : String :=
  match b.data with
  | '/' :: _ => b
  | _ =>
    match a.data.getLast? with
    | none => b
    | some '/' => a ++ b
    | some _ => a ++ "/" ++ b

/-- `os.path.abspath` relative to a working directory `cwd`: absolute paths
are kept, relative ones are anchored at `cwd` (normalisation of `.`/`..`
segments, which the staged paths never contain, is not modelled). -/
def abspathIn (cwd p : String) : String :=
  match p.data with
  | '/' :: _ => p
  | _ => pathJoin cwd p

/-- Build orchestration state for a single package × platform pair
(`class PackageBuild`, constructor at lines 167-187). -/
structure PackageBuild where
  package : Package
  platform : PlatformInfo
  build_root : String
  package_root : String
  package_dir : String
  build_dir : String
  remove_build_dir : Bool
  staged : Bool
  image : Option Image
deriving DecidableEq

/-- `PackageBuild.__init__` (lines 167-187): `package_dir` is
`os.path.join(package_root, package.name)`, `build_dir` is the fresh
`mkdtemp` directory (passed in, since it is chosen by the OS), `staged`
starts `False` and `image` starts `None`. -/
def mkPackageBuild (package : Package) (platform : PlatformInfo)
    (build_root package_root : String) (remove_build_dir : Bool)
    (build_dir : String) : PackageBuild :=
  { package := package, platform := platform, build_root := build_root,
    package_root := package_root,
    package_dir := pathJoin package_root package.name,
    build_dir := build_dir, remove_build_dir := remove_build_dir,
    staged := false, image := none }

/-- `PackageBuild.source_archive_path` (lines 211-216), given the already
resolved archive name. -/
def source_archive_path (pb : PackageBuild) (an : String) : String :=
  pathJoin pb.package_dir an

/-- `PackageBuild.staged_archive` (lines 279-284). -/
def staged_archive (pb : PackageBuild) (an : String) : String :=
  pathJoin pb.build_dir an

/-- `PackageBuild.staged_dockerfile` (lines 286-291). -/
def staged_dockerfile (pb : PackageBuild) : String :=
  pathJoin pb.build_dir ("Dockerfile")

/-- The copy strategy chosen at lines 314-326: `os.link` (hard links) or
`shutil.copy2` (full copies). -/
inductive CopyStrategy
  | link
  | copy2
deriving DecidableEq

/-- A filesystem action performed while staging. -/
inductive FsOp
  | copyFile (strategy : CopyStrategy) (src dst : String)
  | mkdirOp (path : String)
deriving DecidableEq

/-- One `os.walk` triple: a directory, its subdirectories, its files. -/
structure WalkEntry where
  dir : String
  subdirs : List String
  files : List String
deriving DecidableEq

/-- The environment `stage_files` runs in: the working directory, the host
architecture and OS name, the device number `os.lstat(path).st_dev`
returns for each path, the `os.walk` listing of the walked source tree,
the outcome of `download_source_package` (`none` = returned normally,
`some e` = raised `e`), and which filesystem operations succeed. -/
structure StageWorld where
  cwd : String
  arch : String
  sysname : String
  dev : String → Nat
  walk : List WalkEntry
  dl : Option Exc
  fsOk : FsOp → Bool

/-- The device comparison of `stage_files` (lines 314-326): the code calls
`os.lstat(self.package.name)` — the path equal to the bare package NAME,
relative to the working directory — and `os.lstat(self.build_dir)`, and
uses hard links exactly when the two `st_dev` values are equal. -/
def stageStrategy (pb : PackageBuild) (w : StageWorld) : CopyStrategy :=
  if w.dev pb.package.name = w.dev pb.build_dir then CopyStrategy.link
  else CopyStrategy.copy2

/-- Modelled from the spec: the device comparison as §4.2 step 2 and the
claim describe it, using the package SOURCE directory
`./packages/<name>/` (`self.package_dir`) instead of the bare package
name.  Stated only to be compared with `stageStrategy`. -/
def specStageStrategy (pb : PackageBuild) (w : StageWorld) : CopyStrategy :=
  if w.dev pb.package_dir = w.dev pb.build_dir then CopyStrategy.link
  else CopyStrategy.copy2

/-- Target directory for one walked source directory (lines 337-338):
`build_dir` joined with the walked directory minus the walk-root prefix,
with leading slashes stripped. -/
def walkTarget (build_dir src_root source_dir : String) : String :=
  pathJoin build_dir
    (String.mk ((source_dir.data.drop src_root.data.length).dropWhile
      (fun c => c = '/')))

/-- The operations the loop body at lines 336-349 performs for one walk
entry: copy each file into the mirrored directory, then `os.mkdir` each
subdirectory explicitly (the code cannot use `copytree`, which would
reject the pre-existing `build_dir`). -/
def entryOps (strat : CopyStrategy) (src_root build_dir : String)
    (e : WalkEntry) : List FsOp :=
  (e.files.map (fun fn =>
    FsOp.copyFile strat (pathJoin e.dir fn)
      (pathJoin (walkTarget build_dir src_root e.dir) fn)))
  ++ (e.subdirs.map (fun d =>
    FsOp.mkdirOp (pathJoin (walkTarget build_dir src_root e.dir) d)))

/-- All tree-replication operations of the walk loop. -/
def walkOps (strat : CopyStrategy) (src_root build_dir : String)
    (walk : List WalkEntry) : List FsOp :=
  (walk.map (entryOps strat src_root build_dir)).flatten

/-- Every filesystem operation `stage_files` performs after the download
(lines 314-361), in order: replicate the tree walked from
`abspath(self.package.name)`, then copy the downloaded archive
(`abspath(self.source_archive_path)` → `self.staged_archive`), then copy
the platform Dockerfile template into the context root. -/
def stageOps (pb : PackageBuild) (w : StageWorld) (an : String) : List FsOp :=
  walkOps (stageStrategy pb w) (abspathIn w.cwd pb.package.name) pb.build_dir
    w.walk
  ++ [FsOp.copyFile (stageStrategy pb w)
        (abspathIn w.cwd (source_archive_path pb an)) (staged_archive pb an),
      FsOp.copyFile (stageStrategy pb w)
        (abspathIn w.cwd (dockerfile_template pb.platform))
        (staged_dockerfile pb)]

/-- First failing operation of a sequence, if any (the first raised
`OSError` aborts the method). -/
def firstFailing (ok : FsOp → Bool) : List FsOp → Option FsOp
  | [] => none
  | op :: rest => if ok op then firstFailing ok rest else some op

/-- An exception escaping `stage_files`. -/
inductive StageErr
  | download (e : Exc)
  | badTemplate
  | io (op : FsOp)
deriving DecidableEq

/-- `PackageBuild.stage_files` (lines 308-363): run the download, resolve
the archive name, perform every copy/mkdir, and only when everything
succeeded set `self.staged = True` (line 363, the last statement).  An
error result models the exception propagating with `self` unchanged. -/
def stage_files (pb : PackageBuild) (w : StageWorld) :
    Except StageErr PackageBuild :=
  match w.dl with
  | some e => Except.error (StageErr.download e)
  | none =>
    match source_archive_name pb.package w.arch w.sysname with
    | none => Except.error StageErr.badTemplate
    | some an =>
      match firstFailing w.fsOk (stageOps pb w an) with
      | some op => Except.error (StageErr.io op)
      | none => Except.ok { pb with staged := true }

/-- The `staged` flag of the unit after a `stage_files` call: on an
exception the flag is whatever it was before (the assignment at line 363
was never reached). -/
def stagedAfter (pb : PackageBuild) (w : StageWorld) : Bool :=
  match stage_files pb w with
  | Except.ok pb2 => pb2.staged
  | Except.error _ => pb.staged

/-- Result of the external `docker.images.build` call (line 373): an image
plus build logs, or a `BuildError` payload. -/
inductive BuildResult
  | ok (image : Image) (logs : String)
  | err (e : String)

/-- An exception escaping `PackageBuild.build`. -/
inductive BuildFail
  | notStaged
  | buildFailed (e : String)
deriving DecidableEq

/-- `PackageBuild.build` (lines 365-392): raise `ValueError` at once when
`self.staged` is false (before any Docker call — the result does not
depend on `backend`), otherwise assign `self.image` from a successful
backend build, or log and re-raise a `BuildError`. -/
def build (pb : PackageBuild) (backend : BuildResult) :
    Except BuildFail PackageBuild :=
  if pb.staged = false then Except.error BuildFail.notStaged
  else
    match backend with
    | BuildResult.ok img _ => Except.ok { pb with image := some img }
    | BuildResult.err e => Except.error (BuildFail.buildFailed e)

/-- The unit's `image` attribute after a `build` call: unchanged when the
call raised (the tuple assignment at line 373 never happened). -/
def imageAfter (pb : PackageBuild) (backend : BuildResult) : Option Image :=
  match build pb backend with
  | Except.ok pb2 => pb2.image
  | Except.error _ => pb.image

/-- Result of the external `docker.containers.run` call (lines 402-405). -/
inductive RunResult
  | ok (logs : String)
  | err (e : String) (stdout stderr : Option String)

/-- An exception escaping `PackageBuild.export`. -/
inductive ExportFail
  | noImage
  | runFailed (e : String)
deriving DecidableEq

/-- `PackageBuild.export` (lines 394-423): raise `ValueError` at once when
`self.image` is `None` (before any Docker call — the result does not
depend on `backend`), otherwise run the built image and re-raise a
`ContainerError` after logging. -/
def exportFiles (pb : PackageBuild) (dest_root : String)
    (backend : RunResult) : Except ExportFail String :=
  match pb.image with
  | none => Except.error ExportFail.noImage
  | some _ =>
    match backend with
    | RunResult.ok logs => Except.ok logs
    | RunResult.err e _ _ => Except.error (ExportFail.runFailed e)

/-! `LOG_STRIP_PATTERN` (line 27 of repobuild.py) is the anchored Python
regular expression

  `^(?:[ \n]*\n)?((?:.|\n+.)*)(?:\n[ \n]*)?$`

applied with `.match(s)` and read through `.group(1)`.  Its three parts are
embedded below: `LeadGroup` is the language of the optional leading group
`[ \n]*\n` (a nonempty run of blanks ending in a newline), `G1Atoms` is the
language of the capture group `(?:.|\n+.)*` (concatenations of the atoms
"one non-newline character" and "one or more newlines followed by a
non-newline character"), and `TailGroup` is the language of the optional
trailing group `\n[ \n]*`.  Python matches each part greedily and the
continuation of every greedy choice below always succeeds, so the match is
leftmost-longest part by part; `leadStripAux` computes the longest leading
prefix in `LeadGroup`, and the greedy star of the capture group consumes
the longest prefix of the remainder that an atom decomposition can cover,
which is everything up to (excluding) the trailing run of newlines.  The
greediness of both computations is proved against the pattern languages in
the decomposition and maximality theorems below. -/

/-- A character matched by the character class `[ \n]`. -/
def isBlankChar (c : Char) : Bool := c == ' ' || c == '\n'

/-- Greedy matcher for the optional leading group `(?:[ \n]*\n)?`: returns
`some r` where `r` is the remainder after the LONGEST prefix of blanks
ending in a newline, or `none` when no prefix matches (the group then
matches empty). -/
def leadStripAux : List Char → Option (List Char)
  | [] => none
  | c :: rest =>
    if c = '\n' then some ((leadStripAux rest).getD rest)
    else if c = ' ' then leadStripAux rest
    else none

/-- The input minus what the leading group consumes. -/
def dropLeadingGroup (s : List Char) : List Char := (leadStripAux s).getD s

/-- The input minus its maximal trailing run of newlines — exactly what the
greedy capture group `((?:.|\n+.)*)` consumes, since its atoms always end
in a non-newline character and can cover everything before the trailing
newline run. -/
def dropTrailNl (s : List Char) : List Char :=
  (s.reverse.dropWhile (fun c => c == '\n')).reverse

/-- The maximal trailing run of newlines — what the trailing group
`(?:\n[ \n]*)?` (together with `$`) consumes after the greedy capture. -/
def trailNlRun (s : List Char) : List Char :=
  (s.reverse.takeWhile (fun c => c == '\n')).reverse

/-- `LOG_STRIP_PATTERN.match(s).group(1)`: what the code logs for each
diagnostic line (lines 382-389, 411-421). -/
def logStrip (s : List Char) : List Char := dropTrailNl (dropLeadingGroup s)

/-- The prefix consumed by the leading group on input `s`. -/
def leadPart (s : List Char) : List Char :=
  s.take (s.length - (dropLeadingGroup s).length)

/-- The language of `[ \n]*\n`: a nonempty word of blanks whose last
character is a newline. -/
def LeadGroup (l : List Char) : Prop :=
  l ≠ [] ∧ (∀ c ∈ l, isBlankChar c = true) ∧ l.getLast? = some '\n'

/-- The language of `\n[ \n]*`: a newline followed by blanks. -/
def TailGroup (t : List Char) : Prop :=
  ∃ w, t = '\n' :: w ∧ ∀ c ∈ w, isBlankChar c = true

/-- The language of the capture group `(?:.|\n+.)*`, built atom by atom:
empty, or extended by a single non-newline character (`.`), or extended by
a nonempty newline run followed by a non-newline character (`\n+.`). -/
inductive G1Atoms : List Char → Prop
  | nil : G1Atoms []
  | dot {g : List Char} {c : Char} : c ≠ '\n' → G1Atoms g →
      G1Atoms (g ++ [c])
  | run {g : List Char} {m : Nat} {c : Char} : 1 ≤ m → c ≠ '\n' →
      G1Atoms g → G1Atoms (g ++ (List.replicate m '\n' ++ [c]))

/-! Concrete instances used by counterexamples and witnesses. -/

/-- A package whose URL template exercises the `Name`/`Version` fields. -/
def fooPackage : Package :=
  { name := "foo", version := "1.0",
    download_url := "http://x/{Name}-{Version}.tar.gz", dependencies := [] }

/-- The `amzn2` platform catalog entry (lines 100-101). -/
def amzn2Platform : PlatformInfo :=
  { name := "amzn2", arch := "x86_64", source_docker_image := "amazonlinux:2",
    package_type := PackageType.RPM }

/-- A concrete build unit: package root `packages`, so the package source
directory of the spec is `packages/foo` while the bare package name is
`foo`. -/
def cexPB : PackageBuild :=
  mkPackageBuild fooPackage amzn2Platform ("builds") ("packages") true
    ("builds/ctx")

/-- A device map on which the path `foo` (what the code passes to
`os.lstat`) and the path `packages/foo` (the package source directory named
by the claim) live on different filesystems, while `packages/foo` and the
build context share one. -/
def cexDev : String → Nat := fun s => if s = "foo" then 0 else 1

/-- The staging environment of the device-comparison counterexample. -/
def cexWorld : StageWorld :=
  { cwd := "/r", arch := "x86_64", sysname := "Linux", dev := cexDev,
    walk := [], dl := none, fsOk := fun _ => true }

/-- A staging environment in which everything succeeds. -/
def okWorld : StageWorld :=
  { cwd := "/r", arch := "x86_64", sysname := "Linux", dev := fun _ => 0,
    walk := [{ dir := "/r/foo", subdirs := ["sub"], files := ["a.spec"] }],
    dl := none, fsOk := fun _ => true }

/-- A freshly constructed build unit for `fooPackage` on `amzn2`. -/
def okPB : PackageBuild :=
  mkPackageBuild fooPackage amzn2Platform ("builds") ("packages") true
    ("builds/w")

/-- A staging environment whose download step raises. -/
def errWorld : StageWorld :=
  { cwd := "/r", arch := "x86_64", sysname := "Linux", dev := fun _ => 0,
    walk := [], dl := some (Exc.other "boom"), fsOk := fun _ => true }

/-! Theorems. -/

theorem acquireStep_own_iff {st : Option SourcePackageState} :
    acquireStep st = AcquireOutcome.own ↔
      st = none ∨ st = some SourcePackageState.Failed := by
  cases st with
  | none => simp [acquireStep]
  | some s => cases s <;> simp [acquireStep]

theorem ginv_init {ι : Type} (names : ι → String) :
    GInv (initGlobal names) := by
  refine ⟨?_, ?_, ?_⟩ <;> intro t <;> simp [initGlobal]

theorem ginv_step {ι : Type} [DecidableEq ι] {g g2 : Global ι} {l : Label ι}
    (hi : GInv g) (hs : Step g l g2) : GInv g2 := by
  obtain ⟨hOwn, hMutex, hDid⟩ := hi
  have hDidF : ∀ u : ι, (g.threads u).pc ≠ PC.doneTrue →
      (g.threads u).didDownload = false := by
    intro u h
    cases hb : (g.threads u).didDownload
    · rfl
    · exact absurd ((hDid u).mp hb) h
  cases hs with
  | claim t hpc hacq =>
    have hst := acquireStep_own_iff.mp hacq
    refine ⟨?_, ?_, ?_⟩
    · intro u hu
      by_cases h : u = t
      · subst h
        simp [claimPost]
      · have hpu : (claimPost g t).threads u = g.threads u := by
          simp [claimPost, h]
        rw [hpu] at hu ⊢
        have hold := hOwn u hu
        by_cases hnm : (g.threads u).pkgName = (g.threads t).pkgName
        · simp [claimPost, hnm]
        · simpa [claimPost, hnm] using hold
    · intro u v hu hv hnm
      by_cases hut : u = t <;> by_cases hvt : v = t
      · exact hut.trans hvt.symm
      · exfalso
        subst hut
        have hv2 : (g.threads v).pc = PC.downloading := by
          simpa [claimPost, hvt] using hv
        have hnm2 : (g.threads u).pkgName = (g.threads v).pkgName := by
          simpa [claimPost, hvt] using hnm
        have hip := hOwn v hv2
        rw [← hnm2] at hip
        rcases hst with h1 | h1 <;> rw [h1] at hip <;> simp at hip
      · exfalso
        subst hvt
        have hu2 : (g.threads u).pc = PC.downloading := by
          simpa [claimPost, hut] using hu
        have hnm2 : (g.threads u).pkgName = (g.threads v).pkgName := by
          simpa [claimPost, hut] using hnm
        have hip := hOwn u hu2
        rw [hnm2] at hip
        rcases hst with h1 | h1 <;> rw [h1] at hip <;> simp at hip
      · have hu2 : (g.threads u).pc = PC.downloading := by
          simpa [claimPost, hut] using hu
        have hv2 : (g.threads v).pc = PC.downloading := by
          simpa [claimPost, hvt] using hv
        have hnm2 : (g.threads u).pkgName = (g.threads v).pkgName := by
          simpa [claimPost, hut, hvt] using hnm
        exact hMutex u v hu2 hv2 hnm2
    · intro u
      by_cases h : u = t
      · subst h
        have hdf := hDidF u (by rw [hpc]; intro hx; exact PC.noConfusion hx)
        simp [claimPost, hdf]
      · simpa [claimPost, h] using hDid u
  | observed t hpc hacq =>
    refine ⟨?_, ?_, ?_⟩
    · intro u hu
      by_cases h : u = t
      · subst h
        simp [falsePost] at hu
      · have hpu : (falsePost g t).threads u = g.threads u := by
          simp [falsePost, h]
        rw [hpu] at hu ⊢
        simpa [falsePost] using hOwn u hu
    · intro u v hu hv hnm
      by_cases hut : u = t
      · subst hut; simp [falsePost] at hu
      · by_cases hvt : v = t
        · subst hvt; simp [falsePost] at hv
        · exact hMutex u v (by simpa [falsePost, hut] using hu)
            (by simpa [falsePost, hvt] using hv)
            (by simpa [falsePost, hut, hvt] using hnm)
    · intro u
      by_cases h : u = t
      · subst h
        have hdf := hDidF u (by rw [hpc]; intro hx; exact PC.noConfusion hx)
        simp [falsePost, hdf]
      · simpa [falsePost, h] using hDid u
  | blocked t hpc hacq =>
    refine ⟨?_, ?_, ?_⟩
    · intro u hu
      by_cases h : u = t
      · subst h
        simp [waitPost] at hu
      · have hpu : (waitPost g t).threads u = g.threads u := by
          simp [waitPost, h]
        rw [hpu] at hu ⊢
        simpa [waitPost] using hOwn u hu
    · intro u v hu hv hnm
      by_cases hut : u = t
      · subst hut; simp [waitPost] at hu
      · by_cases hvt : v = t
        · subst hvt; simp [waitPost] at hv
        · exact hMutex u v (by simpa [waitPost, hut] using hu)
            (by simpa [waitPost, hvt] using hv)
            (by simpa [waitPost, hut, hvt] using hnm)
    · intro u
      by_cases h : u = t
      · subst h
        have hdf := hDidF u (by rw [hpc]; intro hx; exact PC.noConfusion hx)
        simp [waitPost, hdf]
      · simpa [waitPost, h] using hDid u
  | succeed t url chunks contentLength n hpc hdl =>
    refine ⟨?_, ?_, ?_⟩
    · intro u hu
      by_cases h : u = t
      · subst h
        simp [succeedPost] at hu
      · have hpu : (succeedPost g t).threads u = g.threads u := by
          simp [succeedPost, h]
        rw [hpu] at hu ⊢
        have hold := hOwn u hu
        have hne : (g.threads u).pkgName ≠ (g.threads t).pkgName := by
          intro hnm
          exact h (hMutex u t hu hpc hnm)
        simpa [succeedPost, hne] using hold
    · intro u v hu hv hnm
      by_cases hut : u = t
      · subst hut; simp [succeedPost] at hu
      · by_cases hvt : v = t
        · subst hvt; simp [succeedPost] at hv
        · exact hMutex u v (by simpa [succeedPost, hut] using hu)
            (by simpa [succeedPost, hvt] using hv)
            (by simpa [succeedPost, hut, hvt] using hnm)
    · intro u
      by_cases h : u = t
      · subst h
        simp [succeedPost]
      · simpa [succeedPost, h] using hDid u
  | failure t e hpc =>
    refine ⟨?_, ?_, ?_⟩
    · intro u hu
      by_cases h : u = t
      · subst h
        simp [failPost] at hu
      · have hpu : (failPost g t).threads u = g.threads u := by
          simp [failPost, h]
        rw [hpu] at hu ⊢
        have hold := hOwn u hu
        have hne : (g.threads u).pkgName ≠ (g.threads t).pkgName := by
          intro hnm
          exact h (hMutex u t hu hpc hnm)
        simpa [failPost, hne] using hold
    · intro u v hu hv hnm
      by_cases hut : u = t
      · subst hut; simp [failPost] at hu
      · by_cases hvt : v = t
        · subst hvt; simp [failPost] at hv
        · exact hMutex u v (by simpa [failPost, hut] using hu)
            (by simpa [failPost, hvt] using hv)
            (by simpa [failPost, hut, hvt] using hnm)
    · intro u
      by_cases h : u = t
      · subst h
        have hdf := hDidF u (by rw [hpc]; intro hx; exact PC.noConfusion hx)
        simp [failPost, hdf]
      · simpa [failPost, h] using hDid u

theorem ginv_steps {ι : Type} [DecidableEq ι] {names : ι → String}
    {ls : List (Label ι)} {g : Global ι}
    (hs : Steps (initGlobal names) ls g) : GInv g := by
  induction hs with
  | refl => exact ginv_init names
  | tail _ hstep ih => exact ginv_step ih hstep

theorem nfinv_step {ι : Type} [DecidableEq ι] {g g2 : Global ι} {l : Label ι}
    (hg : GInv g) (hn : NFInv g) (hs : Step g l g2)
    (hl : isFailLabel l = false) : NFInv g2 := by
  cases hs with
  | claim t hpc hacq =>
    intro nm
    have hst := acquireStep_own_iff.mp hacq
    by_cases h : nm = (g.threads t).pkgName
    · subst h
      rcases hn ((g.threads t).pkgName) with ⟨h1, h2, h3⟩ | ⟨h1, h2, h3⟩ | ⟨h1, h2, h3⟩
      · right; left
        refine ⟨?_, ?_, ?_⟩ <;> simp [claimPost, h2, h3]
      · rcases hst with hx | hx <;> rw [hx] at h1 <;> simp at h1
      · rcases hst with hx | hx <;> rw [hx] at h1 <;> simp at h1
    · simpa [claimPost, h] using hn nm
  | observed t hpc hacq =>
    intro nm
    simpa [falsePost] using hn nm
  | blocked t hpc hacq =>
    intro nm
    simpa [waitPost] using hn nm
  | succeed t url chunks contentLength n hpc hdl =>
    intro nm
    have hip := hg.1 t hpc
    by_cases h : nm = (g.threads t).pkgName
    · subst h
      rcases hn ((g.threads t).pkgName) with ⟨h1, h2, h3⟩ | ⟨h1, h2, h3⟩ | ⟨h1, h2, h3⟩
      · rw [hip] at h1; simp at h1
      · right; right
        refine ⟨?_, ?_, ?_⟩ <;> simp [succeedPost, h2, h3]
      · rw [hip] at h1; simp at h1
    · simpa [succeedPost, h] using hn nm
  | failure t e hpc => simp [isFailLabel] at hl

theorem nfinv_steps {ι : Type} [DecidableEq ι] {names : ι → String}
    {ls : List (Label ι)} {g : Global ι}
    (hs : Steps (initGlobal names) ls g)
    (hnf : ∀ l ∈ ls, isFailLabel l = false) : NFInv g := by
  induction hs with
  | refl =>
    intro nm
    exact Or.inl ⟨rfl, rfl, rfl⟩
  | tail hpre hstep ih =>
    rename_i g1 g2 ls1 l1
    have h1 : ∀ l ∈ ls1, isFailLabel l = false := by
      intro l hl
      exact hnf l (List.mem_append_left _ hl)
    have h2 : isFailLabel l1 = false := by
      refine hnf l1 (List.mem_append_right _ ?_)
      simp
    exact nfinv_step (ginv_steps hpre) (ih h1) hstep h2

theorem waiting_stable_step {ι : Type} [DecidableEq ι] {g g2 : Global ι}
    {l : Label ι} (hs : Step g l g2) {t : ι}
    (hw : (g.threads t).pc = PC.waiting) : (g2.threads t).pc = PC.waiting := by
  cases hs with
  | claim u hpc hacq =>
    by_cases h : t = u
    · subst h; rw [hw] at hpc; exact absurd hpc (by simp)
    · simpa [claimPost, h] using hw
  | observed u hpc hacq =>
    by_cases h : t = u
    · subst h; rw [hw] at hpc; exact absurd hpc (by simp)
    · simpa [falsePost, h] using hw
  | blocked u hpc hacq =>
    by_cases h : t = u
    · subst h; rw [hw] at hpc; exact absurd hpc (by simp)
    · simpa [waitPost, h] using hw
  | succeed u url chunks contentLength n hpc hdl =>
    by_cases h : t = u
    · subst h; rw [hw] at hpc; exact absurd hpc (by simp)
    · simpa [succeedPost, h] using hw
  | failure u e hpc =>
    by_cases h : t = u
    · subst h; rw [hw] at hpc; exact absurd hpc (by simp)
    · simpa [failPost, h] using hw

theorem waiting_stable {ι : Type} [DecidableEq ι] {g g2 : Global ι}
    {ls : List (Label ι)} (hs : Steps g ls g2) {t : ι}
    (hw : (g.threads t).pc = PC.waiting) : (g2.threads t).pc = PC.waiting := by
  induction hs with
  | refl => exact hw
  | tail _ hstep ih => exact waiting_stable_step hstep ih

theorem downloadLoop_short : ∀ (chunks : List Nat) (url : String)
    (cl acc : Nat), acc + chunks.sum < cl →
    ∃ e, downloadLoop url cl chunks acc = Except.error e
      ∧ e.url = url ∧ e.contentLength = cl
      ∧ acc ≤ e.totalRead ∧ e.totalRead ≤ acc + chunks.sum := by
  intro chunks
  induction chunks with
  | nil =>
    intro url cl acc h
    simp only [List.sum_nil, Nat.add_zero] at h
    refine ⟨{ url := url, totalRead := acc, contentLength := cl }, ?_, rfl, rfl, le_refl _, ?_⟩
    · rw [downloadLoop]
      simp [h]
    · simp
  | cons n0 rest ih =>
    intro url cl acc h
    have hacc : acc < cl := by
      have : acc ≤ acc + (n0 :: rest).sum := Nat.le_add_right _ _
      omega
    by_cases h0 : n0 = 0
    · refine ⟨{ url := url, totalRead := acc, contentLength := cl }, ?_, rfl, rfl, le_refl _, ?_⟩
      · rw [downloadLoop]
        simp [hacc, h0]
      · simp
    · have hsum : (acc + n0) + rest.sum < cl := by
        simp only [List.sum_cons] at h
        omega
      obtain ⟨e, he, hu, hc, hlo, hhi⟩ := ih url cl (acc + n0) hsum
      refine ⟨e, ?_, hu, hc, ?_, ?_⟩
      · rw [downloadLoop]
        simp only [hacc, if_pos, h0, if_neg]
        simpa [h0] using he
      · omega
      · simp only [List.sum_cons]
        omega

theorem downloadLoop_ok : ∀ (chunks : List Nat) (url : String)
    (cl acc n : Nat), downloadLoop url cl chunks acc = Except.ok n →
    cl ≤ n ∧ acc ≤ n ∧ n ≤ acc + chunks.sum := by
  intro chunks
  induction chunks with
  | nil =>
    intro url cl acc n h
    rw [downloadLoop] at h
    by_cases hacc : acc < cl
    · simp [hacc] at h
    · simp [hacc] at h
      subst h
      refine ⟨by omega, le_refl _, by simp⟩
  | cons n0 rest ih =>
    intro url cl acc n h
    rw [downloadLoop] at h
    by_cases hacc : acc < cl
    · simp only [if_pos hacc] at h
      by_cases h0 : n0 = 0
      · simp [h0] at h
      · simp only [h0, if_neg, ite_false] at h
        have := ih url cl (acc + n0) n (by simpa [h0] using h)
        refine ⟨this.1, by omega, ?_⟩
        simp only [List.sum_cons]
        omega
    · simp only [if_neg hacc] at h
      injection h with h
      subst h
      refine ⟨by omega, le_refl _, by simp⟩

/-- C1 (code bug evidence): after an owned download completes, the code
sets the terminal state and returns, but never calls
`notify_all`/`notify` on `download_cond`, so a waiter parked in
`cond.wait()` is NEVER released.  Concretely: in the two-worker run where
worker 0 claims the download, worker 1 observes `InProgress` and parks,
and worker 0 then completes successfully, the package state is
`Downloaded` and worker 0 has returned `True` — yet worker 1 is still at
`cond.wait()`, and stays there after every possible further step of the
system, contradicting the claim that completion broadcast-wakes all
waiters so that every waiter observes the terminal state. -/
theorem download_completion_never_wakes_waiters :
    Steps gInit2 traceTwo gDone2
    ∧ gDone2.state ("pkg") = some SourcePackageState.Downloaded
    ∧ (gDone2.threads 0).pc = PC.doneTrue
    ∧ (gDone2.threads 1).pc = PC.waiting
    ∧ (∀ (ls : List (Label (Fin 2))) (g : Global (Fin 2)),
        Steps gDone2 ls g → (g.threads 1).pc = PC.waiting) := by
  refine ⟨?_, by decide, by decide, by decide, ?_⟩
  · have s1 : Step gInit2 (Label.acquire 0) gClaim0 :=
      Step.claim gInit2 0 (by decide) (by decide)
    have s2 : Step gClaim0 (Label.acquire 1) gWait1 :=
      Step.blocked gClaim0 1 (by decide) (by decide)
    have s3 : Step gWait1 (Label.finishOk 0 [5] 5) gDone2 :=
      Step.succeed gWait1 0 ("u") [5] 5 5 (by decide) rfl
    exact Steps.tail (Steps.tail (Steps.tail (Steps.refl _) s1) s2) s3
  · intro ls g hs
    exact waiting_stable hs (by decide)

theorem download_completion_never_wakes_waiters_witness :
    (gDone2.threads 1).pc = PC.waiting :=
  download_completion_never_wakes_waiters.2.2.2.2 [] gDone2 (Steps.refl gDone2)

/-- C2: the locked dispatch of `download_source_package` maps an absent or
`Failed` entry to ownership (the entry is set to `InProgress` and the
caller proceeds to perform the download), a `Downloaded` entry to an
immediate `return False` that changes neither the shared state nor the
history flag, and an `InProgress` entry to parking on the condition
variable with the shared state unchanged; and along every reachable run a
thread has returned `True` exactly when it performed the successful
transfer itself, while a thread that returned `False` performed none. -/
theorem acquire_or_wait_dispatch {ι : Type} [DecidableEq ι]
    (names : ι → String) :
    (acquireStep none = AcquireOutcome.own
      ∧ acquireStep (some SourcePackageState.Failed) = AcquireOutcome.own
      ∧ acquireStep (some SourcePackageState.Downloaded) = AcquireOutcome.retFalse
      ∧ acquireStep (some SourcePackageState.InProgress) = AcquireOutcome.wait)
    ∧ (∀ (g : Global ι) (t : ι),
        (claimPost g t).state ((g.threads t).pkgName)
            = some SourcePackageState.InProgress
        ∧ ((claimPost g t).threads t).pc = PC.downloading
        ∧ (falsePost g t).state = g.state
        ∧ ((falsePost g t).threads t).pc = PC.doneFalse
        ∧ ((falsePost g t).threads t).didDownload = (g.threads t).didDownload
        ∧ (waitPost g t).state = g.state
        ∧ ((waitPost g t).threads t).pc = PC.waiting)
    ∧ (∀ (ls : List (Label ι)) (g : Global ι),
        Steps (initGlobal names) ls g → ∀ t : ι,
        ((g.threads t).pc = PC.doneTrue ↔ (g.threads t).didDownload = true)
        ∧ ((g.threads t).pc = PC.doneFalse →
            (g.threads t).didDownload = false)) := by
  refine ⟨⟨rfl, rfl, rfl, rfl⟩, ?_, ?_⟩
  · intro g t
    refine ⟨?_, ?_, rfl, ?_, ?_, rfl, ?_⟩ <;> simp [claimPost, falsePost, waitPost]
  · intro ls g hs t
    have hDid := (ginv_steps hs).2.2 t
    refine ⟨hDid.symm, ?_⟩
    intro hf
    cases hb : (g.threads t).didDownload
    · rfl
    · have := hDid.mp hb
      rw [hf] at this
      exact absurd this (by simp)

theorem acquire_or_wait_dispatch_witness :
    (gFalse1.threads 1).didDownload = false := by
  have s1 : Step gInit2 (Label.acquire 0) gClaim0 :=
    Step.claim gInit2 0 (by decide) (by decide)
  have s2 : Step gClaim0 (Label.finishOk 0 [5] 5) gDoneNoWait :=
    Step.succeed gClaim0 0 ("u") [5] 5 5 (by decide) rfl
  have s3 : Step gDoneNoWait (Label.acquire 1) gFalse1 :=
    Step.observed gDoneNoWait 1 (by decide) (by decide)
  exact ((acquire_or_wait_dispatch namesTwo).2.2 _ gFalse1
    (Steps.tail (Steps.tail (Steps.tail (Steps.refl _) s1) s2) s3) 1).2
    (by decide)

/-- C3: in every reachable state at most one thread is inside the owned
transfer (`InProgress` ownership) for a given package name — the shared
dictionary is keyed by package name alone, so this holds across platforms
— and along every reachable run without transfer failures both the number
of ownership acquisitions and the number of completed transfers for any
package name are at most one. -/
theorem download_ownership_mutex_and_at_most_once {ι : Type}
    [DecidableEq ι] (names : ι → String) (ls : List (Label ι))
    (g : Global ι) (hs : Steps (initGlobal names) ls g) :
    (∀ t u : ι, (g.threads t).pc = PC.downloading →
        (g.threads u).pc = PC.downloading →
        (g.threads t).pkgName = (g.threads u).pkgName → t = u)
    ∧ ((∀ l ∈ ls, isFailLabel l = false) →
        ∀ nm : String, g.claims nm ≤ 1 ∧ g.transfers nm ≤ 1) := by
  refine ⟨(ginv_steps hs).2.1, ?_⟩
  intro hnf nm
  rcases nfinv_steps hs hnf nm with ⟨h1, h2, h3⟩ | ⟨h1, h2, h3⟩ | ⟨h1, h2, h3⟩ <;>
    simp [h2, h3]

theorem download_ownership_mutex_and_at_most_once_witness :
    gDone2.claims ("pkg") ≤ 1 ∧ gDone2.transfers ("pkg") ≤ 1 := by
  have s1 : Step gInit2 (Label.acquire 0) gClaim0 :=
    Step.claim gInit2 0 (by decide) (by decide)
  have s2 : Step gClaim0 (Label.acquire 1) gWait1 :=
    Step.blocked gClaim0 1 (by decide) (by decide)
  have s3 : Step gWait1 (Label.finishOk 0 [5] 5) gDone2 :=
    Step.succeed gWait1 0 ("u") [5] 5 5 (by decide) rfl
  refine (download_ownership_mutex_and_at_most_once namesTwo _ gDone2
    (Steps.tail (Steps.tail (Steps.tail (Steps.refl _) s1) s2) s3)).2 ?_ ("pkg")
  intro l hl
  simp only [List.mem_append, List.mem_singleton, List.not_mem_nil,
    false_or] at hl
  rcases hl with (hl | hl) | hl <;> subst hl <;> rfl

/-- C5: the transfer streams with the fixed one-mebibyte read buffer; a
stream whose total size is below the declared content length always ends
in the short-read `ValueError` (never a silent success), a stream that
returns normally has read at least — and, when the stream is bounded by
the declaration, exactly — the declared number of bytes; the 999-of-1000
scenario yields the transfer error; and an owner whose transfer raises the
error moves the shared entry for its package to `Failed`. -/
theorem transfer_short_read_is_error {ι : Type} [DecidableEq ι] :
    READ_BUFFER_SIZE = 2 ^ 20
    ∧ (∀ (url : String) (cl : Nat) (chunks : List Nat),
        chunks.sum < cl →
        ∃ e, downloadLoop url cl chunks 0 = Except.error e
          ∧ e.url = url ∧ e.contentLength = cl ∧ e.totalRead ≤ chunks.sum)
    ∧ (∀ (url : String) (cl : Nat) (chunks : List Nat) (n : Nat),
        downloadLoop url cl chunks 0 = Except.ok n →
        cl ≤ n ∧ (chunks.sum ≤ cl → n = cl))
    ∧ downloadLoop ("u") 1000 [999] 0
        = Except.error { url := "u", totalRead := 999, contentLength := 1000 }
    ∧ (∀ (g : Global ι) (t : ι) (e : TransferError),
        (g.threads t).pc = PC.downloading →
        Step g (Label.finishErr t (Exc.transfer e)) (failPost g t)
        ∧ (failPost g t).state ((g.threads t).pkgName)
            = some SourcePackageState.Failed) := by
  refine ⟨rfl, ?_, ?_, rfl, ?_⟩
  · intro url cl chunks h
    obtain ⟨e, he, hu, hc, _, hhi⟩ :=
      downloadLoop_short chunks url cl 0 (by simpa using h)
    exact ⟨e, he, hu, hc, by simpa using hhi⟩
  · intro url cl chunks n h
    obtain ⟨h1, _, h3⟩ := downloadLoop_ok chunks url cl 0 n h
    exact ⟨h1, fun hb => by simp at h3; omega⟩
  · intro g t e hpc
    exact ⟨Step.failure g t (Exc.transfer e) hpc, by simp [failPost]⟩

theorem transfer_short_read_is_error_witness :
    (failPost gClaim0 0).state ((gClaim0.threads 0).pkgName)
      = some SourcePackageState.Failed :=
  ((@transfer_short_read_is_error (Fin 2) _).2.2.2.2 gClaim0 0
    { url := "u", totalRead := 999, contentLength := 1000 } (by decide)).2

/-- C4 counterexample: on a concrete build unit with package name `foo`
and package root `packages`, the package source directory of the claim is
`packages/foo`, which shares its device number with the build context —
so the claim predicts the hard-link strategy — but the code compares the
device of the bare path `foo` (`os.lstat(self.package.name)`, line 316)
instead and picks the full-copy strategy; the two walked roots differ as
well.  The claim is false as stated: staging does not compare (or walk)
`./packages/<name>/`. -/
theorem stage_device_check_uses_package_name_path :
    cexPB.package_dir = ("packages/foo")
    ∧ cexPB.package.name = ("foo")
    ∧ cexWorld.dev ("packages/foo") = cexWorld.dev cexPB.build_dir
    ∧ specStageStrategy cexPB cexWorld = CopyStrategy.link
    ∧ stageStrategy cexPB cexWorld = CopyStrategy.copy2
    ∧ abspathIn cexWorld.cwd cexPB.package.name
        ≠ abspathIn cexWorld.cwd cexPB.package_dir := by
  refine ⟨by decide, by decide, by decide, by decide, by decide, by decide⟩

/-- C4 amended: staging chooses its copy strategy by comparing the device
identifiers of the path given by the bare package name (relative to the
working directory) and of the build context directory — hard-link when
equal, full copy otherwise — then recursively replicates the tree walked
from the absolutised package-name path into the context directory
preserving relative structure, with target directories created explicitly
(only subdirectories of walked entries are ever `mkdir`-ed, never the
pre-existing context root), and finally copies the downloaded archive
(from `./packages/<name>/`) and the platform recipe into the context
root. -/
theorem stage_files_strategy_and_replication (pb : PackageBuild)
    (w : StageWorld) (an : String) :
    (stageStrategy pb w = CopyStrategy.link ↔
        w.dev pb.package.name = w.dev pb.build_dir)
    ∧ (stageStrategy pb w = CopyStrategy.copy2 ↔
        ¬ w.dev pb.package.name = w.dev pb.build_dir)
    ∧ (∀ op : FsOp, op ∈ stageOps pb w an ↔
        ((∃ e ∈ w.walk,
            (∃ fn ∈ e.files, FsOp.copyFile (stageStrategy pb w)
                (pathJoin e.dir fn)
                (pathJoin (walkTarget pb.build_dir
                  (abspathIn w.cwd pb.package.name) e.dir) fn) = op)
            ∨ (∃ d ∈ e.subdirs, FsOp.mkdirOp
                (pathJoin (walkTarget pb.build_dir
                  (abspathIn w.cwd pb.package.name) e.dir) d) = op))
          ∨ op = FsOp.copyFile (stageStrategy pb w)
              (abspathIn w.cwd (source_archive_path pb an))
              (staged_archive pb an)
          ∨ op = FsOp.copyFile (stageStrategy pb w)
              (abspathIn w.cwd (dockerfile_template pb.platform))
              (staged_dockerfile pb)))
    ∧ stageOps pb w an =
        walkOps (stageStrategy pb w) (abspathIn w.cwd pb.package.name)
          pb.build_dir w.walk
        ++ [FsOp.copyFile (stageStrategy pb w)
              (abspathIn w.cwd (source_archive_path pb an))
              (staged_archive pb an),
            FsOp.copyFile (stageStrategy pb w)
              (abspathIn w.cwd (dockerfile_template pb.platform))
              (staged_dockerfile pb)] := by
  refine ⟨?_, ?_, ?_, rfl⟩
  · by_cases h : w.dev pb.package.name = w.dev pb.build_dir <;>
      simp [stageStrategy, h]
  · by_cases h : w.dev pb.package.name = w.dev pb.build_dir <;>
      simp [stageStrategy, h]
  · intro op
    simp only [stageOps, walkOps, entryOps, List.mem_append, List.mem_flatten,
      List.mem_map, List.mem_cons, List.not_mem_nil, or_false,
      exists_exists_and_eq_and]

theorem stage_files_strategy_and_replication_witness :
    stageStrategy okPB okWorld = CopyStrategy.link :=
  (stage_files_strategy_and_replication okPB okWorld ("t")).1.mpr rfl

/-- C6: `stage_files` succeeds exactly when the download returned, the
archive name resolved and every staging copy/mkdir succeeded, and then the
only change to the unit is `staged` flipping to `true` (set once, by the
final statement); on any error the exception propagates and the unit is
left with `staged = false`. -/
theorem staged_flag_set_only_on_full_success (pb : PackageBuild)
    (w : StageWorld) (h : pb.staged = false) :
    (∀ pb2 : PackageBuild, stage_files pb w = Except.ok pb2 →
        pb2 = { pb with staged := true } ∧ pb2.staged = true
        ∧ w.dl = none
        ∧ ∃ an, source_archive_name pb.package w.arch w.sysname = some an
            ∧ firstFailing w.fsOk (stageOps pb w an) = none)
    ∧ (∀ e : StageErr, stage_files pb w = Except.error e →
        stagedAfter pb w = false) := by
  constructor
  · intro pb2 hok
    cases hdl : w.dl with
    | some e => simp [stage_files, hdl] at hok
    | none =>
      cases han : source_archive_name pb.package w.arch w.sysname with
      | none => simp [stage_files, hdl, han] at hok
      | some an =>
        cases hff : firstFailing w.fsOk (stageOps pb w an) with
        | some op => simp [stage_files, hdl, han, hff] at hok
        | none =>
          simp only [stage_files, hdl, han, hff] at hok
          injection hok with hok
          subst hok
          exact ⟨rfl, rfl, rfl, an, rfl, hff⟩
  · intro e he
    simp only [stagedAfter, he]
    exact h

theorem staged_flag_set_only_on_full_success_witness :
    stagedAfter okPB errWorld = false :=
  (staged_flag_set_only_on_full_success okPB errWorld rfl).2
    (StageErr.download (Exc.other "boom")) rfl

/-- C7: calling `build` on a unit that is not staged raises the
precondition `ValueError` immediately and identically for every backend
outcome (the backend is never consulted), and calling `export` on a unit
with no built image raises its precondition `ValueError` likewise; under
the preconditions (`staged = true`, image present) those error branches
are unreachable. -/
theorem build_export_precondition_fail_fast :
    (∀ (pb : PackageBuild) (b : BuildResult), pb.staged = false →
        build pb b = Except.error BuildFail.notStaged)
    ∧ (∀ (pb : PackageBuild) (b : BuildResult), pb.staged = true →
        build pb b ≠ Except.error BuildFail.notStaged)
    ∧ (∀ (pb : PackageBuild) (d : String) (b : RunResult), pb.image = none →
        exportFiles pb d b = Except.error ExportFail.noImage)
    ∧ (∀ (pb : PackageBuild) (d : String) (b : RunResult) (img : Image),
        pb.image = some img →
        exportFiles pb d b ≠ Except.error ExportFail.noImage) := by
  refine ⟨?_, ?_, ?_, ?_⟩
  · intro pb b h
    simp [build, h]
  · intro pb b h
    simp only [build, h]
    cases b with
    | ok img logs => simp
    | err e => simp
  · intro pb d b h
    simp [exportFiles, h]
  · intro pb d b img h
    simp only [exportFiles, h]
    cases b with
    | ok logs => simp
    | err e o1 o2 => simp

theorem build_export_precondition_fail_fast_witness :
    build okPB (BuildResult.ok { id := "i" } ("l"))
      = Except.error BuildFail.notStaged :=
  build_export_precondition_fail_fast.1 okPB (BuildResult.ok { id := "i" } ("l"))
    rfl

/-- C9: the resolved download URL and the source archive name are pure
functions of the package and the host architecture and OS name (two calls
agree definitionally); the archive name is exactly the URL-decoded
basename of the path component of the resolved URL; and on the concrete
package `foo@1.0` with template `http://x/\x7bName\x7d-\x7bVersion\x7d.tar.gz`
the resolved URL and archive name evaluate as expected. -/
theorem resolved_url_and_archive_name_deterministic :
    (∀ (pkg : Package) (arch sysname : String),
        resolved_download_url pkg arch sysname
          = resolved_download_url pkg arch sysname
        ∧ source_archive_name pkg arch sysname
          = source_archive_name pkg arch sysname)
    ∧ (∀ (pkg : Package) (arch sysname : String) (u : String),
        resolved_download_url pkg arch sysname = some u →
        source_archive_name pkg arch sysname
          = some (String.mk (pathSplitLast (unquotePlus (urlPath u.data)))))
    ∧ resolved_download_url fooPackage ("x86_64") ("Linux")
        = some ("http://x/foo-1.0.tar.gz")
    ∧ source_archive_name fooPackage ("x86_64") ("Linux")
        = some ("foo-1.0.tar.gz") := by
  refine ⟨fun pkg a s => ⟨rfl, rfl⟩, ?_, ?_, ?_⟩
  · intro pkg a s u h
    simp [source_archive_name, h]
  · simp [resolved_download_url, pyFormat, formatKV, splitKey, lbrace,
      rbrace, String.mk, fooPackage]
  · simp [source_archive_name, resolved_download_url, pyFormat, formatKV,
      splitKey, lbrace, rbrace, String.mk, urlPath, unquotePlus,
      pathSplitLast, fooPackage]

theorem resolved_url_and_archive_name_deterministic_witness :
    source_archive_name fooPackage ("x86_64") ("Linux")
      = some (String.mk (pathSplitLast (unquotePlus
          (urlPath ("http://x/foo-1.0.tar.gz").data)))) :=
  resolved_url_and_archive_name_deterministic.2.1 fooPackage ("x86_64")
    ("Linux") ("http://x/foo-1.0.tar.gz")
    resolved_url_and_archive_name_deterministic.2.2.1

/-- C10 (implicit): a freshly constructed unit has `image = None`; the
image is assigned only from a successful backend build; when `build`
raises, the unit's image is unchanged — so after a failed build on a
fresh unit it is still `None`, and any subsequent `export` raises the
missing-image precondition error for every backend outcome, i.e. export
can never run a container for a unit without a successfully built
image. -/
theorem image_none_until_successful_build :
    (∀ (package : Package) (platform : PlatformInfo)
        (build_root package_root : String) (rm : Bool) (build_dir : String),
        (mkPackageBuild package platform build_root package_root rm
          build_dir).image = none)
    ∧ (∀ (pb : PackageBuild) (b : BuildResult) (pb2 : PackageBuild),
        build pb b = Except.ok pb2 →
        ∃ img logs, b = BuildResult.ok img logs ∧ pb2.image = some img)
    ∧ (∀ (pb : PackageBuild) (b : BuildResult) (e : BuildFail),
        build pb b = Except.error e → imageAfter pb b = pb.image)
    ∧ (∀ (pb : PackageBuild) (b : BuildResult) (e : BuildFail)
        (d : String) (rb : RunResult),
        pb.image = none → build pb b = Except.error e →
        imageAfter pb b = none
        ∧ exportFiles pb d rb = Except.error ExportFail.noImage) := by
  have himg : ∀ (pb : PackageBuild) (b : BuildResult) (e : BuildFail),
      build pb b = Except.error e → imageAfter pb b = pb.image := by
    intro pb b e he
    simp only [imageAfter, he]
  refine ⟨?_, ?_, himg, ?_⟩
  · intro package platform build_root package_root rm build_dir
    rfl
  · intro pb b pb2 hok
    by_cases hst : pb.staged = false
    · simp [build, hst] at hok
    · simp only [build, hst, if_false] at hok
      cases b with
      | ok img logs =>
        simp only at hok
        injection hok with hok
        subst hok
        exact ⟨img, logs, rfl, rfl⟩
      | err e => simp at hok
  · intro pb b e d rb hnone he
    refine ⟨?_, ?_⟩
    · rw [himg pb b e he, hnone]
    · simp [exportFiles, hnone]

theorem mem_takeWhile_append {p : Char → Bool} {c : Char} :
    ∀ {x y : List Char}, c ∈ x.takeWhile p → c ∈ (x ++ y).takeWhile p := by
  intro x
  induction x with
  | nil => intro y h; simp [List.takeWhile] at h
  | cons a t ih =>
    intro y h
    by_cases ha : p a
    · rw [List.takeWhile_cons_of_pos ha] at h
      rw [List.cons_append, List.takeWhile_cons_of_pos ha]
      rcases List.mem_cons.mp h with h1 | h1
      · subst h1; exact List.mem_cons_self _ _
      · exact List.mem_cons_of_mem a (ih h1)
    · rw [List.takeWhile_cons_of_neg (by simpa using ha)] at h
      simp at h

theorem lead_none_iff : ∀ {t : List Char},
    leadStripAux t = none ↔ '\n' ∉ t.takeWhile isBlankChar := by
  intro t
  induction t with
  | nil => simp [leadStripAux, List.takeWhile]
  | cons c rest ih =>
    by_cases hc : c = '\n'
    · subst hc
      rw [leadStripAux, if_pos rfl]
      rw [List.takeWhile_cons_of_pos (by simp [isBlankChar])]
      simp
    · by_cases hs : c = ' '
      · subst hs
        rw [leadStripAux, if_neg (by decide), if_pos rfl]
        rw [List.takeWhile_cons_of_pos (by simp [isBlankChar])]
        rw [ih]
        simp
      · rw [leadStripAux, if_neg hc, if_neg hs]
        have hb : isBlankChar c = false := by
          simp [isBlankChar]
          exact ⟨hs, hc⟩
        rw [List.takeWhile_cons_of_neg (by simp [hb])]
        simp

theorem lead_none_no_group : ∀ (l u : List Char), LeadGroup l →
    leadStripAux (l ++ u) ≠ none := by
  intro l
  induction l with
  | nil => intro u hl; exact absurd rfl hl.1
  | cons c0 l0 ih =>
    intro u hl hcontra
    have hb : isBlankChar c0 = true := hl.2.1 c0 (List.mem_cons_self _ _)
    have hc0 : c0 = ' ' ∨ c0 = '\n' := by
      simp [isBlankChar] at hb
      tauto
    rcases hc0 with hsp | hnl
    · subst hsp
      rw [List.cons_append, leadStripAux, if_neg (by decide), if_pos rfl]
        at hcontra
      cases l0 with
      | nil =>
        have := hl.2.2
        simp at this
      | cons c1 l1 =>
        have hl0 : LeadGroup (c1 :: l1) := by
          refine ⟨by simp, ?_, ?_⟩
          · intro x hx
            exact hl.2.1 x (List.mem_cons_of_mem _ hx)
          · have := hl.2.2
            rwa [List.getLast?_cons_cons] at this
        exact ih u hl0 hcontra
    · subst hnl
      rw [List.cons_append, leadStripAux, if_pos rfl] at hcontra
      exact absurd hcontra (by simp)

theorem leadStripAux_some : ∀ {s r : List Char}, leadStripAux s = some r →
    ∃ lead, s = lead ++ r ∧ LeadGroup lead
      ∧ ∀ l u, LeadGroup l → s = l ++ u → l.length ≤ lead.length := by
  intro s
  induction s with
  | nil => intro r h; simp [leadStripAux] at h
  | cons c rest ih =>
    intro r h
    by_cases hc : c = '\n'
    · subst hc
      rw [leadStripAux, if_pos rfl] at h
      injection h with h
      cases hrest : leadStripAux rest with
      | none =>
        rw [hrest] at h
        simp only [Option.getD_none] at h
        subst h
        refine ⟨['\n'], rfl, ⟨by simp, by simp [isBlankChar], rfl⟩, ?_⟩
        intro l u hl hsu
        cases l with
        | nil => exact absurd rfl hl.1
        | cons c0 l0 =>
          rw [List.cons_append] at hsu
          injection hsu with h1 h2
          cases l0 with
          | nil => simp
          | cons c1 l1 =>
            exfalso
            have hl0 : LeadGroup (c1 :: l1) := by
              refine ⟨by simp, ?_, ?_⟩
              · intro x hx
                exact hl.2.1 x (List.mem_cons_of_mem _ hx)
              · have := hl.2.2
                rwa [List.getLast?_cons_cons] at this
            refine lead_none_no_group (c1 :: l1) u hl0 ?_
            rw [← h2]
            exact hrest
      | some r2 =>
        rw [hrest] at h
        simp only [Option.getD_some] at h
        subst h
        obtain ⟨lead2, heq, hlg, hmax⟩ := ih hrest
        refine ⟨'\n' :: lead2, by rw [List.cons_append, heq], ?_, ?_⟩
        · refine ⟨by simp, ?_, ?_⟩
          · intro x hx
            rcases List.mem_cons.mp hx with h1 | h1
            · subst h1; simp [isBlankChar]
            · exact hlg.2.1 x h1
          · cases hlx : lead2 with
            | nil => exact absurd hlx hlg.1
            | cons a tl =>
              rw [List.getLast?_cons_cons]
              have := hlg.2.2
              rwa [hlx] at this
        · intro l u hl hsu
          cases l with
          | nil => exact absurd rfl hl.1
          | cons c0 l0 =>
            rw [List.cons_append] at hsu
            injection hsu with h1 h2
            cases l0 with
            | nil => simp
            | cons c1 l1 =>
              have hl0 : LeadGroup (c1 :: l1) := by
                refine ⟨by simp, ?_, ?_⟩
                · intro x hx
                  exact hl.2.1 x (List.mem_cons_of_mem _ hx)
                · have := hl.2.2
                  rwa [List.getLast?_cons_cons] at this
              have := hmax (c1 :: l1) u hl0 h2
              simp only [List.length_cons] at this ⊢
              omega
    · by_cases hs : c = ' '
      · subst hs
        rw [leadStripAux, if_neg (by decide), if_pos rfl] at h
        obtain ⟨lead2, heq, hlg, hmax⟩ := ih h
        refine ⟨' ' :: lead2, by rw [List.cons_append, heq], ?_, ?_⟩
        · refine ⟨by simp, ?_, ?_⟩
          · intro x hx
            rcases List.mem_cons.mp hx with h1 | h1
            · subst h1; simp [isBlankChar]
            · exact hlg.2.1 x h1
          · cases hlx : lead2 with
            | nil => exact absurd hlx hlg.1
            | cons a tl =>
              rw [List.getLast?_cons_cons]
              have := hlg.2.2
              rwa [hlx] at this
        · intro l u hl hsu
          cases l with
          | nil => exact absurd rfl hl.1
          | cons c0 l0 =>
            rw [List.cons_append] at hsu
            injection hsu with h1 h2
            cases l0 with
            | nil =>
              exfalso
              have := hl.2.2
              rw [← h1] at this
              simp at this
            | cons c1 l1 =>
              have hl0 : LeadGroup (c1 :: l1) := by
                refine ⟨by simp, ?_, ?_⟩
                · intro x hx
                  exact hl.2.1 x (List.mem_cons_of_mem _ hx)
                · have := hl.2.2
                  rwa [List.getLast?_cons_cons] at this
              have := hmax (c1 :: l1) u hl0 h2
              simp only [List.length_cons] at this ⊢
              omega
      · rw [leadStripAux, if_neg hc, if_neg hs] at h
        exact absurd h (by simp)

theorem leadStripAux_post : ∀ {s r : List Char}, leadStripAux s = some r →
    leadStripAux r = none := by
  intro s
  induction s with
  | nil => intro r h; simp [leadStripAux] at h
  | cons c rest ih =>
    intro r h
    by_cases hc : c = '\n'
    · subst hc
      rw [leadStripAux, if_pos rfl] at h
      injection h with h
      cases hrest : leadStripAux rest with
      | none =>
        rw [hrest] at h
        simp only [Option.getD_none] at h
        subst h
        exact hrest
      | some r2 =>
        rw [hrest] at h
        simp only [Option.getD_some] at h
        subst h
        exact ih hrest
    · by_cases hs : c = ' '
      · subst hs
        rw [leadStripAux, if_neg (by decide), if_pos rfl] at h
        exact ih h
      · rw [leadStripAux, if_neg hc, if_neg hs] at h
        exact absurd h (by simp)

theorem dropTrailNl_append (s : List Char) :
    dropTrailNl s ++ trailNlRun s = s := by
  unfold dropTrailNl trailNlRun
  rw [← List.reverse_append, List.takeWhile_append_dropWhile,
    List.reverse_reverse]

theorem trailNlRun_mem {s : List Char} {c : Char} (h : c ∈ trailNlRun s) :
    c = '\n' := by
  unfold trailNlRun at h
  rw [List.mem_reverse] at h
  have := List.mem_takeWhile_imp h
  simpa using this

theorem trailNlRun_replicate (s : List Char) :
    trailNlRun s = List.replicate (trailNlRun s).length '\n' :=
  List.eq_replicate_of_mem (fun _ hc => trailNlRun_mem hc)

theorem head_dropWhile {p : Char → Bool} : ∀ (l : List Char) {a : Char},
    (l.dropWhile p).head? = some a → p a = false := by
  intro l
  induction l with
  | nil => intro a h; simp [List.dropWhile] at h
  | cons c rest ih =>
    intro a h
    by_cases hc : p c
    · rw [List.dropWhile_cons_of_pos hc] at h
      exact ih h
    · rw [List.dropWhile_cons_of_neg (by simpa using hc)] at h
      simp at h
      subst h
      simpa using hc

theorem dropTrailNl_getLast (s : List Char) :
    (dropTrailNl s).getLast? ≠ some '\n' := by
  unfold dropTrailNl
  rw [List.getLast?_reverse]
  intro h
  have := head_dropWhile s.reverse h
  simp at this

theorem dropTrailNl_eq_self {s : List Char}
    (h : s.getLast? ≠ some '\n') : dropTrailNl s = s := by
  cases hr : s.reverse with
  | nil =>
    have hs : s = [] := by
      have := congrArg List.reverse hr
      simpa using this
    subst hs
    rfl
  | cons a t =>
    have h1 : s.getLast? = some a := by
      conv_lhs => rw [← List.reverse_reverse s]
      rw [List.getLast?_reverse, hr]
      rfl
    have ha : ¬ (a == '\n') = true := by
      simp only [beq_iff_eq]
      intro he
      subst he
      exact h h1
    unfold dropTrailNl
    rw [hr, List.dropWhile_cons, if_neg ha, ← hr, List.reverse_reverse]

theorem g1_last : ∀ {g : List Char}, G1Atoms g → g.getLast? ≠ some '\n' := by
  intro g hg
  induction hg with
  | nil => simp
  | dot hc _ _ =>
    rw [List.getLast?_concat]
    intro h
    injection h with h
    exact absurd h (by assumption)
  | run hm hc _ _ =>
    rw [← List.append_assoc, List.getLast?_concat]
    intro h
    injection h with h
    exact absurd h (by assumption)

theorem g1_of_last : ∀ (n : Nat) (g : List Char), g.length = n →
    g.getLast? ≠ some '\n' → G1Atoms g := by
  intro n
  induction n using Nat.strong_induction_on with
  | _ n ih =>
    intro g hlen hlast
    rcases List.eq_nil_or_concat g with hnil | ⟨h, c, hg⟩
    · subst hnil; exact G1Atoms.nil
    · rw [List.concat_eq_append] at hg
      subst hg
      have hc : c ≠ '\n' := by
        rw [List.getLast?_concat] at hlast
        intro he
        subst he
        exact hlast rfl
      have hrep := trailNlRun_replicate h
      have hdec : dropTrailNl h ++ List.replicate (trailNlRun h).length '\n'
          = h := by
        rw [← hrep]
        exact dropTrailNl_append h
      have hlh : h.length + 1 = n := by
        rw [← hlen]
        simp
      by_cases hk : (trailNlRun h).length = 0
      · have ht0 : trailNlRun h = [] := List.length_eq_zero.mp hk
        have hh : dropTrailNl h = h := by
          have hda := dropTrailNl_append h
          rwa [ht0, List.append_nil] at hda
        have hhl : h.getLast? ≠ some '\n' := by
          rw [← hh]
          exact dropTrailNl_getLast h
        have hgh : G1Atoms h := ih h.length (by omega) h rfl hhl
        exact G1Atoms.dot hc hgh
      · have hblen : (dropTrailNl h).length ≤ h.length := by
          have := congrArg List.length hdec
          simp at this
          omega
        have hbody : G1Atoms (dropTrailNl h) :=
          ih (dropTrailNl h).length (by omega) (dropTrailNl h) rfl
            (dropTrailNl_getLast h)
        have hr : G1Atoms (dropTrailNl h
            ++ (List.replicate (trailNlRun h).length '\n' ++ [c])) :=
          G1Atoms.run (by omega) hc hbody
        rwa [← List.append_assoc, hdec] at hr

theorem g1_maximal {r g u : List Char} (hgu : g ++ u = r)
    (hg : G1Atoms g) : g.length ≤ (dropTrailNl r).length := by
  by_contra hlt
  push_neg at hlt
  have hdec : dropTrailNl r ++ List.replicate (trailNlRun r).length '\n'
      = r := by
    rw [← trailNlRun_replicate]
    exact dropTrailNl_append r
  have hglen : g.length ≤ r.length := by
    rw [← hgu]
    simp
  have hrlen : (dropTrailNl r).length + (trailNlRun r).length = r.length := by
    have := congrArg List.length hdec
    simpa using this
  have hgt : g = r.take g.length := by
    rw [← hgu, List.take_append_eq_append_take]
    simp
  rw [← hdec, List.take_append_eq_append_take, List.take_replicate] at hgt
  have htk : (dropTrailNl r).take g.length = dropTrailNl r :=
    List.take_of_length_le (by omega)
  rw [htk] at hgt
  have hj : min (g.length - (dropTrailNl r).length) (trailNlRun r).length
      = (g.length - (dropTrailNl r).length) := by
    omega
  rw [hj] at hgt
  obtain ⟨jj, hjj⟩ : ∃ jj, g.length - (dropTrailNl r).length = jj + 1 :=
    ⟨g.length - (dropTrailNl r).length - 1, by omega⟩
  rw [hjj, List.replicate_succ'] at hgt
  have hlast : g.getLast? = some '\n' := by
    rw [hgt, ← List.append_assoc, List.getLast?_concat]
  exact g1_last hg hlast

theorem leadPart_spec (s : List Char) :
    s = leadPart s ++ dropLeadingGroup s
    ∧ (leadPart s = [] ∨ LeadGroup (leadPart s))
    ∧ (∀ l u, LeadGroup l → s = l ++ u →
        l.length ≤ (leadPart s).length) := by
  cases h : leadStripAux s with
  | none =>
    have hd : dropLeadingGroup s = s := by simp [dropLeadingGroup, h]
    have hp : leadPart s = [] := by simp [leadPart, hd]
    refine ⟨by rw [hp, hd]; rfl, Or.inl hp, ?_⟩
    intro l u hl hsu
    exfalso
    refine lead_none_no_group l u hl ?_
    rw [← hsu]
    exact h
  | some r =>
    obtain ⟨lead, heq, hlg, hmax⟩ := leadStripAux_some h
    have hd : dropLeadingGroup s = r := by simp [dropLeadingGroup, h]
    have hlen : s.length - r.length = lead.length := by
      rw [heq]
      simp
    have hp : leadPart s = lead := by
      rw [leadPart, hd, hlen, heq, List.take_append_eq_append_take]
      simp
    refine ⟨by rw [hp, hd]; exact heq, Or.inr (hp ▸ hlg), ?_⟩
    intro l u hl hsu
    rw [hp]
    exact hmax l u hl hsu

theorem dropLeadingGroup_none (s : List Char) :
    leadStripAux (dropLeadingGroup s) = none := by
  cases h : leadStripAux s with
  | none =>
    have hd : dropLeadingGroup s = s := by simp [dropLeadingGroup, h]
    rw [hd]
    exact h
  | some r =>
    have hd : dropLeadingGroup s = r := by simp [dropLeadingGroup, h]
    rw [hd]
    exact leadStripAux_post h

theorem logStrip_idem (s : List Char) :
    logStrip (logStrip s) = logStrip s := by
  have hnot : '\n' ∉ (dropLeadingGroup s).takeWhile isBlankChar :=
    lead_none_iff.mp (dropLeadingGroup_none s)
  have hnot2 : '\n' ∉ (dropTrailNl (dropLeadingGroup s)).takeWhile
      isBlankChar := by
    intro hmem
    refine hnot ?_
    rw [← dropTrailNl_append (dropLeadingGroup s)]
    exact mem_takeWhile_append hmem
  have hX : dropLeadingGroup (logStrip s) = logStrip s := by
    have hnone : leadStripAux (logStrip s) = none := lead_none_iff.mpr hnot2
    simp [dropLeadingGroup, hnone]
  show dropTrailNl (dropLeadingGroup (logStrip s)) = logStrip s
  rw [hX]
  exact dropTrailNl_eq_self (dropTrailNl_getLast (dropLeadingGroup s))

/-- C8: on every input string the pattern `LOG_STRIP_PATTERN` matches, and
`group(1)` is obtained by stripping exactly one leading group matching
`[ \n]*\n` (possibly empty, and greedy-longest) and exactly one trailing
group matching `\n[ \n]*` (possibly empty; together with `$` it absorbs
the whole trailing newline run, and the capture group is greedy-longest);
the normalization is idempotent, and it maps the scenario input (two
leading newlines around `step 3 failed` and two trailing newlines) to
`step 3 failed`. -/
theorem log_strip_normalization :
    (∀ s : List Char,
      s = leadPart s ++ logStrip s ++ trailNlRun (dropLeadingGroup s)
      ∧ (leadPart s = [] ∨ LeadGroup (leadPart s))
      ∧ G1Atoms (logStrip s)
      ∧ (trailNlRun (dropLeadingGroup s) = []
          ∨ TailGroup (trailNlRun (dropLeadingGroup s)))
      ∧ (∀ l u, LeadGroup l → s = l ++ u → l.length ≤ (leadPart s).length)
      ∧ (∀ g u, G1Atoms g → g ++ u = dropLeadingGroup s →
          g.length ≤ (logStrip s).length)
      ∧ logStrip (logStrip s) = logStrip s)
    ∧ logStrip (("\n\nstep 3 failed\n\n").data) = ("step 3 failed").data := by
  constructor
  · intro s
    obtain ⟨hdecomp, hleadok, hleadmax⟩ := leadPart_spec s
    refine ⟨?_, hleadok, ?_, ?_, hleadmax, ?_, logStrip_idem s⟩
    · conv_lhs => rw [hdecomp]
      have hba : logStrip s ++ trailNlRun (dropLeadingGroup s)
          = dropLeadingGroup s := dropTrailNl_append (dropLeadingGroup s)
      rw [List.append_assoc, hba]
    · exact g1_of_last (logStrip s).length (logStrip s) rfl
        (dropTrailNl_getLast (dropLeadingGroup s))
    · cases ht : trailNlRun (dropLeadingGroup s) with
      | nil => exact Or.inl rfl
      | cons a w =>
        refine Or.inr ?_
        have ha : a = '\n' := trailNlRun_mem (by rw [ht]; exact List.mem_cons_self _ _)
        subst ha
        refine ⟨w, rfl, ?_⟩
        intro x hx
        have hxa : x = '\n' := trailNlRun_mem
          (by rw [ht]; exact List.mem_cons_of_mem _ hx)
        subst hxa
        simp [isBlankChar]
    · intro g u hg hgu
      exact g1_maximal hgu hg
  · decide

theorem log_strip_normalization_witness :
    ("\n".data).length ≤ (leadPart (("\n x").data)).length :=
  (log_strip_normalization.1 (("\n x").data)).2.2.2.2.1 ("\n".data)
    (" x".data) (by refine ⟨by simp, by simp [isBlankChar], rfl⟩) (by decide)

theorem image_none_until_successful_build_witness :
    imageAfter okPB (BuildResult.err ("boom")) = none
    ∧ exportFiles okPB ("dist") (RunResult.ok ("l"))
        = Except.error ExportFail.noImage :=
  image_none_until_successful_build.2.2.2 okPB (BuildResult.err ("boom"))
    BuildFail.notStaged ("dist") (RunResult.ok ("l")) rfl rfl

end Repobuild
